import Mathlib

/-!
Verification of the clausal-backend contract-analysis core: a shallow
embedding of the chunker, analysis merger, conversation manager and risk
assessor, with theorems checking the specification's claims.
-/

/-- JSON values as produced by parsing the model's output.  Numbers are
modelled as integers: the merge logic never does numeric arithmetic or
float-specific comparison, it only tests values against `None` and `""`. -/
inductive JValue where
  | jnull
  | jbool (b : Bool)
  | jnum (n : Int)
  | jstr (s : String)
  | jarr (items : List JValue)
  | jobj (fields : List (String × JValue))

mutual

/-- Structural equality on JSON values (Python `==` on parsed JSON data). -/
def jeq : JValue → JValue → Bool
  | .jnull, .jnull => true
  | .jbool a, .jbool b => a == b
  | .jnum a, .jnum b => a == b
  | .jstr a, .jstr b => a == b
  | .jarr a, .jarr b => jeqList a b
  | .jobj a, .jobj b => jeqFields a b
  | _, _ => false
termination_by a _ => sizeOf a

/-- Elementwise equality of JSON arrays. -/
def jeqList : List JValue → List JValue → Bool
  | [], [] => true
  | a :: as, b :: bs => jeq a b && jeqList as bs
  | _, _ => false
termination_by as _ => sizeOf as

/-- Entrywise equality of JSON objects. -/
def jeqFields : List (String × JValue) → List (String × JValue) → Bool
  | [], [] => true
  | (k, v) :: as, (l, w) :: bs => k == l && jeq v w && jeqFields as bs
  | _, _ => false
termination_by as _ => sizeOf as

end

mutual

theorem jeq_iff (a b : JValue) : jeq a b = true ↔ a = b := by
  cases a <;> cases b <;> simp [jeq]
  · exact jeqList_iff _ _
  · exact jeqFields_iff _ _
termination_by sizeOf a

theorem jeqList_iff (as bs : List JValue) : jeqList as bs = true ↔ as = bs := by
  cases as <;> cases bs <;> simp [jeqList]
  case cons.cons a as' b bs' =>
    rw [jeq_iff a b, jeqList_iff as' bs']
termination_by sizeOf as

theorem jeqFields_iff (as bs : List (String × JValue)) :
    jeqFields as bs = true ↔ as = bs := by
  cases as <;> cases bs <;> simp [jeqFields]
  case cons.cons a as' b bs' =>
    obtain ⟨k, v⟩ := a
    obtain ⟨l, w⟩ := b
    simp [jeqFields]
    rw [jeq_iff v w, jeqFields_iff as' bs']
termination_by sizeOf as

end

instance : DecidableEq JValue := fun a b => decidable_of_iff _ (jeq_iff a b)

/-- A JSON object: an insertion-ordered association list, mirroring a
Python `dict` (keys unique, insertion order preserved). -/
abbrev JObj := List (String × JValue)

/-- Python `d[k]` lookup on an insertion-ordered dict. -/
def lookupField : JObj → String → Option JValue
  | [], _ => none
  | (k', v) :: rest, k => if k' = k then some v else lookupField rest k

/-- Python `d[k] = v` for a key already present: replaces the value in
place, keeping the key's position. -/
def setField : JObj → String → JValue → JObj
  | [], _, _ => []
  | (k', v') :: rest, k, v =>
    if k' = k then (k, v) :: rest else (k', v') :: setField rest k v

/-- Test `new_value == "not_found_in_chunk"` from `_merge_dicts`. -/
def isSentinel : JValue → Bool
  | .jstr s => s = "not_found_in_chunk"
  | _ => false

/-- Test `merged[key] is None or merged[key] == ""` from `_merge_dicts`. -/
def isEmptyScalar : JValue → Bool
  | .jnull => true
  | .jstr s => s = ""
  | _ => false

/-- A scalar JSON value (not a sequence, not a record). -/
def isScalar : JValue → Bool
  | .jarr _ => false
  | .jobj _ => false
  | _ => true

/-- ASCII lowercasing, modelling Python `str.lower` on the ASCII strings
this domain uses. -/
def pyLower (s : String) : String := String.mk (s.data.map Char.toLower)

/-- Escape one character of a Python string repr quoted with `q`. -/
def pyEscapeChar (q : Char) (c : Char) : String :=
  if c = '\\' then "\\\\"
  else if c = q then "\\" ++ String.mk [q]
  else if c = '\n' then "\\n"
  else if c = '\r' then "\\r"
  else if c = '\t' then "\\t"
  else String.mk [c]

/-- Python `repr` of a string: single quotes by default, double quotes when
the string contains a single quote but no double quote (printable
characters assumed, as in this domain). -/
def pyStrRepr (s : String) : String :=
  let q : Char := if s.data.contains '\x27' && !(s.data.contains '"') then '"' else '\x27'
  String.mk [q] ++ String.join (s.data.map (pyEscapeChar q)) ++ String.mk [q]

mutual

/-- Python `repr` of a parsed-JSON value. -/
def pyRepr : JValue → String
  | .jnull => "None"
  | .jbool true => "True"
  | .jbool false => "False"
  | .jnum n => toString n
  | .jstr s => pyStrRepr s
  | .jarr xs => "[" ++ pyReprList xs ++ "]"
  | .jobj fs => "\x7b" ++ pyReprFields fs ++ "\x7d"
termination_by v => sizeOf v

/-- Comma-separated element reprs of a Python list. -/
def pyReprList : List JValue → String
  | [] => ""
  | [x] => pyRepr x
  | x :: xs => pyRepr x ++ ", " ++ pyReprList xs
termination_by xs => sizeOf xs

/-- Comma-separated `key: value` reprs of a Python dict. -/
def pyReprFields : List (String × JValue) → String
  | [] => ""
  | [(k, v)] => pyStrRepr k ++ ": " ++ pyRepr v
  | (k, v) :: fs => pyStrRepr k ++ ": " ++ pyRepr v ++ ", " ++ pyReprFields fs
termination_by fs => sizeOf fs

end

/-- Python `str` of a parsed-JSON value: `str` of a string is the string
itself, containers and other scalars print as their repr. -/
def pyStr : JValue → String
  | .jstr s => s
  | v => pyRepr v

/-- Deduplication key from `_merge_lists`: lowercased string for string
items, Python string representation for everything else. -/
def itemKey : JValue → String
  | .jstr s => pyLower s
  | v => pyStr v

/-- Loop of `_merge_lists`: walk `existing + new`, keeping an item exactly
when its key has not been seen (`seen` models the Python set). -/
def mergeListsGo (seen : List String) (merged : List JValue) : List JValue → List JValue
  | [] => merged
  | item :: rest =>
    if itemKey item ∈ seen then mergeListsGo seen merged rest
    else mergeListsGo (itemKey item :: seen) (merged ++ [item]) rest

/-- ContractAnalyzer._merge_lists: merge two lists, removing duplicates by
`itemKey` and preserving first-occurrence order. -/
def mergeLists (existing new : List JValue) : List JValue :=
  mergeListsGo [] [] (existing ++ new)

/-- Specification-side description of the deduplication: keep the first
occurrence of each key, in order. -/
def firstOccurrencesBy (key : JValue → String) : List JValue → List JValue
  | [] => []
  | x :: xs => x :: firstOccurrencesBy key (xs.filter (fun y => key y ≠ key x))
termination_by l => l.length
decreasing_by
  simp only [List.length_cons]
  exact Nat.lt_succ_of_le (List.length_filter_le _ _)

/-- ContractAnalyzer._merge_dicts: recursively merge dict `new` into dict
`existing`.  `.error ()` models the exception Python raises when the new
value for a key is a sequence or record but the accumulator's value is
not (list concatenation or `.items()` on a non-container). -/
def mergeDicts (existing : JObj) (new : JObj) : Except Unit JObj :=
  match new with
  | [] => .ok existing
  | (k, nv) :: rest =>
    if isSentinel nv then mergeDicts existing rest
    else
      match lookupField existing k with
      | none => mergeDicts (existing ++ [(k, nv)]) rest
      | some oldv =>
        match nv, oldv with
        | .jarr newItems, .jarr oldItems =>
          mergeDicts (setField existing k (.jarr (mergeLists oldItems newItems))) rest
        | .jarr _, _ => .error ()
        | .jobj newFields, .jobj oldFields =>
          match mergeDicts oldFields newFields with
          | .ok sub => mergeDicts (setField existing k (.jobj sub)) rest
          | .error e => .error e
        | .jobj _, _ => .error ()
        | _, _ =>
          if isEmptyScalar oldv then mergeDicts (setField existing k nv) rest
          else mergeDicts existing rest
termination_by sizeOf new

/-- ContractAnalyzer._parse_api_response as seen through the enclosing
try/except of `_merge_analyses`: extract `response["content"][0]["text"]`
and JSON-parse it; any Python exception on the way becomes `none`.
`loads` abstracts the standard library's `json.loads` (returning `none`
on a `JSONDecodeError`), just as the tokenizer is abstracted below. -/
def parseApiResponse (loads : String → Option JValue) (response : JValue) : Option JValue :=
  match response with
  | .jobj fields =>
    match lookupField fields "content" with
    | some (.jarr (first :: _)) =>
      match first with
      | .jobj fs =>
        match lookupField fs "text" with
        | some (.jstr s) => loads s
        | _ => none
      | _ => none
    | _ => none
  | _ => none

/-- The initial accumulator dict of `_merge_analyses` (lines 221-250). -/
def initialMerged : JObj :=
  [("metadata", .jobj []),
   ("classification", .jobj [("type", .jnull), ("primaryCharacteristics", .jarr [])]),
   ("compensation", .jobj
     [("baseCompensation", .jobj []),
      ("commission", .jobj [("tiers", .jarr []), ("caps", .jobj [])])]),
   ("termination", .jobj
     [("noticePeriod", .jobj []),
      ("immediateTerminationClauses", .jarr []),
      ("postTerminationObligations", .jarr [])]),
   ("intellectualProperty", .jobj [("ownership", .jobj []), ("moralRights", .jobj [])]),
   ("restrictiveCovenants", .jobj [("nonCompete", .jobj []), ("nonSolicitation", .jobj [])]),
   ("confidentiality", .jobj
     [("scope", .jarr []), ("duration", .jobj []), ("exceptions", .jarr [])]),
   ("liability", .jobj [("indemnification", .jobj []), ("limitations", .jobj [])])]

/-- Loop body of `_merge_analyses`: parse one raw envelope and fold it into
the accumulator; any exception (parse failure, non-dict payload, or a
type-mismatch exception inside `_merge_dicts`) is caught and the chunk is
skipped, leaving the accumulator unchanged. -/
def foldAnalysis (loads : String → Option JValue) (merged : JObj) (analysis : JValue) : JObj :=
  match parseApiResponse loads analysis with
  | some (.jobj fields) =>
    match mergeDicts merged fields with
    | .ok m2 => m2
    | .error _ => merged
  | _ => merged

/-- ContractAnalyzer._merge_analyses: raises (only) when the envelope list
is empty, otherwise folds every envelope into the initial skeleton. -/
def mergeAnalyses (loads : String → Option JValue) (analyses : List JValue) : Except Unit JObj :=
  match analyses with
  | [] => .error ()
  | _ => .ok (analyses.foldl (foldAnalysis loads) initialMerged)

/-- Reattach a character to the front of the first piece of a split. -/
def consHead (c : Char) : List (List Char) → List (List Char)
  | [] => [[c]]
  | s :: ss => (c :: s) :: ss

/-- Python `text.split(". ")` at the character-list level: leftmost-first,
non-overlapping matches of the two-character delimiter. -/
def splitSentences : List Char → List (List Char)
  | [] => [[]]
  | [c] => consHead c (splitSentences [])
  | c :: d :: rest =>
    if c = '.' ∧ d = ' ' then [] :: splitSentences rest
    else consHead c (splitSentences (d :: rest))

/-- Python `text.split(". ")`. -/
def pySplitDotSpace (text : String) : List String :=
  (splitSentences text.data).map String.mk

/-- Python `sep.join(parts)`. -/
def joinSep (sep : String) : List String → String
  | [] => ""
  | [s] => s
  | s :: ss => s ++ sep ++ joinSep sep ss

/-- `sep.join` at the character-list level. -/
def joinCharSep (sep : List Char) : List (List Char) → List Char
  | [] => []
  | [s] => s
  | s :: ss => s ++ sep ++ joinCharSep sep ss

/-- Running state of `_chunk_text`: sealed chunks, the sentences of the
chunk being built, and the running token count. -/
structure ChunkState where
  chunks : List String
  cur : List String
  curTokens : Nat
deriving DecidableEq

/-- Reattach the delimiter period to every sentence that is not (by value)
the text's final sentence — the Python code compares each sentence to
`sentences[-1]` by value, not by position. -/
def decorate (lastSentence : String) (s : String) : String :=
  if s ≠ lastSentence then s ++ "." else s

/-- Loop body of `_chunk_text` for one (already decorated) sentence: seal
the current chunk when this sentence would overflow the effective budget
and the current chunk is nonempty, then append the sentence.  `tok`
abstracts `len(self.encoder.encode(s))` of the external tiktoken
encoder. -/
def chunkStep (tok : String → Nat) (effMax : Int) (st : ChunkState) (s : String) : ChunkState :=
  let c := tok s
  if (st.curTokens : Int) + (c : Int) > effMax ∧ st.cur ≠ [] then
    { chunks := st.chunks ++ [joinSep " " st.cur], cur := [s], curTokens := c }
  else
    { chunks := st.chunks, cur := st.cur ++ [s], curTokens := st.curTokens + c }

/-- ContractAnalyzer._chunk_text: split into sentences on ". ", reattach
periods, and greedily pack sentences into chunks whose per-sentence token
counts sum to at most `maxTokens - 500`. -/
def chunkText (tok : String → Nat) (text : String) (maxTokens : Int) : List String :=
  let effMax := maxTokens - 500
  let sentences := pySplitDotSpace text
  let lastSentence := sentences.getLastD ""
  let final := sentences.foldl
    (fun st s => chunkStep tok effMax st (decorate lastSentence s)) ⟨[], [], 0⟩
  if final.cur ≠ [] then final.chunks ++ [joinSep " " final.cur] else final.chunks

/-- The decorated sentence list of a text: `split(". ")` outputs with the
delimiter period reattached exactly as `_chunk_text` does. -/
def decoratedSentences (text : String) : List String :=
  (pySplitDotSpace text).map (decorate ((pySplitDotSpace text).getLastD ""))

/-- One turn of a conversation: a role with its content.  The wall-clock
`id` and `timestamp` fields of the ChatMessage dataclass are outside the
model. -/
structure Msg where
  role : String
  content : String
deriving DecidableEq

/-- Content of the synthetic seed user turn (contract_chat.py line 96). -/
def seedUserContent (contractText : String) : String :=
  "Here is the contract to analyze:\n\n" ++ contractText ++
    "\n\nPlease acknowledge that you\x27ve received the contract."

/-- Content of the synthetic assistant acknowledgment (line 100). -/
def seedAckContent : String :=
  "I have received the contract and am ready to help analyze it. What would you like to know about the contract?"

/-- Content of the re-injected contract context (line 115), built from the
session's stored contract text. -/
def contextContent (storedText : String) : String :=
  "Here is the contract to analyze:\n\n" ++ storedText ++ "\n\nPlease analyze this contract."

/-- Python `l[-3:]`. -/
def lastN (n : Nat) (l : List α) : List α := l.drop (l.length - n)

/-- Role of `messages[0]` (only consulted when the list is nonempty). -/
def headRole : List Msg → String
  | [] => ""
  | m :: _ => m.role

/-- ContractChat.get_response, lines 89-121: assemble the outgoing message
sequence.  By line 92 the contract id is always in `contract_contexts`
(it is inserted at line 70 when absent), so the seed condition reduces to
the history being empty; a `None` history is modelled as `[]`. -/
def buildMessages (contractText storedText : String) (history : List Msg) (message : String) : List Msg :=
  let ms1 : List Msg :=
    if history = [] then
      [⟨"user", seedUserContent contractText⟩, ⟨"assistant", seedAckContent⟩]
    else []
  let ms2 := ms1 ++ (if history ≠ [] then lastN 3 history else [])
  let ms3 :=
    if ms2 ≠ [] ∧ headRole ms2 ≠ "user" then
      ⟨"user", contextContent storedText⟩ :: ms2
    else ms2
  ms3 ++ [⟨"user", message⟩]

/-- Result of one successful ContractChat.get_response call. -/
structure ChatTurnResult where
  outgoing : List Msg
  reply : Msg
  saved : List Msg

/-- ContractChat.get_response, success path: the stored contract text is
the parameter text when the contract id is new and the previously stored
text otherwise; the assistant's reply (model output `assistantText`) is
the only record appended to the persisted history (lines 164-176). -/
def getResponse (hasContext : Bool) (storedPrev contractText : String)
    (history : List Msg) (message : String) (assistantText : String) : ChatTurnResult :=
  let stored := if hasContext then storedPrev else contractText
  let reply : Msg := ⟨"assistant", assistantText⟩
  { outgoing := buildMessages contractText stored history message
    reply := reply
    saved := history ++ [reply] }

/-- Iterate get_response over successive turns, threading the persisted
history; each turn is a (user message, assistant reply) pair. -/
def runTurns (hasContext : Bool) (storedPrev contractText : String)
    (history : List Msg) (turns : List (String × String)) : List Msg :=
  turns.foldl (fun h t => (getResponse hasContext storedPrev contractText h t.1 t.2).saved) history

/-- A parsed risk entry: one JSON object from the model's `risks` array. -/
abbrev RiskObj := JObj

/-- Python `r[k]` with `KeyError` modelled as `.error`. -/
def getItem (r : RiskObj) (k : String) : Except Unit JValue :=
  match lookupField r k with
  | some v => .ok v
  | none => .error ()

/-- Number of risks whose `severity` equals `sev`, i.e.
`len([r for r in risks if r["severity"] == sev])`. -/
def countSeverity (sev : String) : List RiskObj → Except Unit Nat
  | [] => .ok 0
  | r :: rest => do
    let v ← getItem r "severity"
    let n ← countSeverity sev rest
    .ok (if jeq v (.jstr sev) then n + 1 else n)

/-- `summary["risksByCategory"][category].append(risk)` with the category
list created on first appearance: a dict keyed by the category value. -/
def addToGroup (groups : List (JValue × List RiskObj)) (c : JValue) (r : RiskObj) :
    List (JValue × List RiskObj) :=
  match groups with
  | [] => [(c, [r])]
  | (c2, rs) :: rest =>
    if jeq c2 c then (c2, rs ++ [r]) :: rest else (c2, rs) :: addToGroup rest c r

/-- Sequences and records cannot be Python dict keys (unhashable). -/
def isUnhashable : JValue → Bool
  | .jarr _ => true
  | .jobj _ => true
  | _ => false

/-- Grouping loop of assess_risks: fold the risks into a dict keyed by
their `category` value, in insertion order of first appearance. -/
def groupRisks (groups : List (JValue × List RiskObj)) :
    List RiskObj → Except Unit (List (JValue × List RiskObj))
  | [] => .ok groups
  | r :: rest => do
    let c ← getItem r "category"
    if isUnhashable c then .error ()
    else groupRisks (addToGroup groups c r) rest

/-- The summary dict built by ContractRiskAssessor.assess_risks. -/
structure RiskSummary where
  totalRisks : Nat
  highPriorityCount : Nat
  mediumPriorityCount : Nat
  lowPriorityCount : Nat
  risksByCategory : List (JValue × List RiskObj)

/-- Summary computation of assess_risks (risk_assessment.py, lines
139-154): total count, per-severity counts, then category grouping. -/
def makeSummary (risks : List RiskObj) : Except Unit RiskSummary := do
  let h ← countSeverity "high" risks
  let m ← countSeverity "medium" risks
  let l ← countSeverity "low" risks
  let groups ← groupRisks [] risks
  .ok ⟨risks.length, h, m, l, groups⟩

/-- The category value of a risk (defaulting to null; under a successful
summary every risk has the key). -/
def catOfD (r : RiskObj) : JValue := (lookupField r "category").getD .jnull

/-- Lookup in the category-grouping dict. -/
def lookupGroup : List (JValue × List RiskObj) → JValue → Option (List RiskObj)
  | [], _ => none
  | (c2, rs) :: rest, c => if c2 = c then some rs else lookupGroup rest c

/-- Specification-side first-appearance deduplication of a value list. -/
def dedupFirst : List JValue → List JValue
  | [] => []
  | x :: xs => x :: dedupFirst (xs.filter (fun y => y ≠ x))
termination_by l => l.length
decreasing_by
  simp only [List.length_cons]
  exact Nat.lt_succ_of_le (List.length_filter_le _ _)

/-- Extend an optional existing category bucket with newly filtered risks:
`none` with nothing new stays absent, otherwise the bucket holds the old
entries followed by the new ones. -/
def combineGroups : Option (List RiskObj) → List RiskObj → Option (List RiskObj)
  | some rs, l => some (rs ++ l)
  | none, [] => none
  | none, l => some l

theorem lookupField_append_of_some {m : JObj} {k : String} {v : JValue} (l : JObj)
    (h : lookupField m k = some v) : lookupField (m ++ l) k = some v := by
  induction m with
  | nil => simp [lookupField] at h
  | cons kv rest ih =>
    obtain ⟨k2, w⟩ := kv
    by_cases hk : k2 = k
    · subst hk
      simp [lookupField] at h ⊢
      exact h
    · simp [lookupField, hk] at h ⊢
      exact ih h

theorem lookupField_setField_ne (m : JObj) (k1 k2 : String) (v : JValue)
    (hne : k1 ≠ k2) : lookupField (setField m k1 v) k2 = lookupField m k2 := by
  induction m with
  | nil => simp [setField]
  | cons kv rest ih =>
    obtain ⟨k3, w⟩ := kv
    by_cases h3 : k3 = k1
    · subst h3
      simp [setField, lookupField, hne]
    · simp [setField, h3, lookupField]
      split
      · rfl
      · exact ih

theorem foldAnalysis_all_unparsed (loads : String → Option JValue) :
    ∀ (l : List JValue) (m : JObj), (∀ a ∈ l, parseApiResponse loads a = none) →
    l.foldl (foldAnalysis loads) m = m := by
  intro l
  induction l with
  | nil => intro m _; rfl
  | cons a rest ih =>
    intro m h
    have ha := h a (by simp)
    simp only [List.foldl_cons]
    rw [show foldAnalysis loads m a = m by simp [foldAnalysis, ha]]
    exact ih m (fun x hx => h x (by simp [hx]))

/-- C1 counterexample: with a single raw envelope that fails to parse (an
empty dict, so `response["content"]` raises), `_merge_analyses` does not
fail — it returns the untouched initial skeleton as a merged result.  The
code has no `NoValidAnalysisError` at all; it raises only on an empty
envelope list. -/
theorem mergeAnalyses_all_unparsed_counterexample :
    parseApiResponse (fun _ => none) (.jobj []) = none ∧
    mergeAnalyses (fun _ => none) [.jobj []] = .ok initialMerged :=
  ⟨rfl, rfl⟩

/-- C1 (amended): if the envelope list is nonempty and every envelope fails
to parse, `_merge_analyses` succeeds and returns the untouched initial
skeleton instead of raising `NoValidAnalysisError`; it raises only when
the envelope list is empty. -/
theorem mergeAnalyses_all_unparsed_returns_skeleton
    (loads : String → Option JValue) (analyses : List JValue)
    (hne : analyses ≠ [])
    (hfail : ∀ a ∈ analyses, parseApiResponse loads a = none) :
    mergeAnalyses loads analyses = .ok initialMerged := by
  cases analyses with
  | nil => cases hne rfl
  | cons a rest =>
    simp only [mergeAnalyses]
    rw [foldAnalysis_all_unparsed loads _ _ hfail]

/-- C1 witness: the amended theorem applied to one concrete unparseable
envelope. -/
theorem mergeAnalyses_all_unparsed_returns_skeleton_witness :
    (([JValue.jobj []] : List JValue) ≠ [] ∧
      ∀ a ∈ ([JValue.jobj []] : List JValue),
        parseApiResponse (fun _ => none) a = none) ∧
    mergeAnalyses (fun _ => none) [JValue.jobj []] = .ok initialMerged := by
  have hfail : ∀ a ∈ ([JValue.jobj []] : List JValue),
      parseApiResponse (fun _ => none) a = none := by
    intro a ha
    simp at ha
    subst ha
    rfl
  exact ⟨⟨by simp, hfail⟩,
    mergeAnalyses_all_unparsed_returns_skeleton (fun _ => none) [JValue.jobj []]
      (by simp) hfail⟩

/-- C3: the merge is first-seen-wins for scalar conflicts — whenever the
accumulator already holds a non-null, non-empty scalar at key `k`, folding
any further partial dict through `_merge_dicts` (successfully) leaves the
value at `k` unchanged. -/
theorem mergeDicts_scalar_first_seen_wins :
    ∀ (new existing m2 : JObj) (k : String) (oldv : JValue),
    lookupField existing k = some oldv →
    isScalar oldv = true →
    isEmptyScalar oldv = false →
    mergeDicts existing new = .ok m2 →
    lookupField m2 k = some oldv := by
  intro new
  induction new with
  | nil =>
    intro existing m2 k oldv h _ _ hok
    simp [mergeDicts] at hok
    subst hok
    exact h
  | cons kv rest ih =>
    rintro existing m2 k oldv h hsc hne hok
    obtain ⟨k2, nv⟩ := kv
    rw [mergeDicts.eq_def] at hok
    simp only at hok
    split at hok
    · exact ih existing m2 k oldv h hsc hne hok
    · split at hok
      · exact ih _ m2 k oldv (lookupField_append_of_some _ h) hsc hne hok
      · rename_i oldv2 hlook
        split at hok
        · rename_i newItems oldItems
          by_cases hk : k2 = k
          · subst hk
            rw [hlook] at h
            cases h
            simp [isScalar] at hsc
          · refine ih _ m2 k oldv ?_ hsc hne hok
            rw [lookupField_setField_ne _ _ _ _ hk]
            exact h
        · cases hok
        · rename_i newFields oldFields
          split at hok
          · rename_i sub hsub
            by_cases hk : k2 = k
            · subst hk
              rw [hlook] at h
              cases h
              simp [isScalar] at hsc
            · refine ih _ m2 k oldv ?_ hsc hne hok
              rw [lookupField_setField_ne _ _ _ _ hk]
              exact h
          · cases hok
        · cases hok
        · split at hok
          · rename_i hemp
            by_cases hk : k2 = k
            · subst hk
              rw [hlook] at h
              cases h
              rw [hemp] at hne
              cases hne
            · refine ih _ m2 k oldv ?_ hsc hne hok
              rw [lookupField_setField_ne _ _ _ _ hk]
              exact h
          · exact ih existing m2 k oldv h hsc hne hok

/-- C3 witness: chunk A asserts amount = 5000, chunk B asserts
amount = 6000; the merged value stays 5000. -/
theorem mergeDicts_scalar_first_seen_wins_witness :
    (lookupField [("amount", JValue.jnum 5000)] "amount" = some (.jnum 5000) ∧
     isScalar (JValue.jnum 5000) = true ∧
     isEmptyScalar (JValue.jnum 5000) = false ∧
     mergeDicts [("amount", JValue.jnum 5000)] [("amount", JValue.jnum 6000)]
       = .ok [("amount", JValue.jnum 5000)]) ∧
    lookupField [("amount", JValue.jnum 5000)] "amount" = some (.jnum 5000) := by
  have hm : mergeDicts [("amount", JValue.jnum 5000)] [("amount", JValue.jnum 6000)]
      = .ok [("amount", JValue.jnum 5000)] := by
    simp [mergeDicts, lookupField, isSentinel, isEmptyScalar]
  exact ⟨⟨rfl, rfl, rfl, hm⟩,
    mergeDicts_scalar_first_seen_wins [("amount", JValue.jnum 6000)]
      [("amount", JValue.jnum 5000)] [("amount", JValue.jnum 5000)] "amount"
      (.jnum 5000) rfl rfl rfl hm⟩

theorem mergeListsGo_spec : ∀ (l : List JValue) (seen : List String) (acc : List JValue),
    mergeListsGo seen acc l =
      acc ++ firstOccurrencesBy itemKey (l.filter (fun y => itemKey y ∉ seen)) := by
  intro l
  induction l with
  | nil =>
    intro seen acc
    simp [mergeListsGo, firstOccurrencesBy]
  | cons x rest ih =>
    intro seen acc
    by_cases hx : itemKey x ∈ seen
    · rw [show mergeListsGo seen acc (x :: rest) = mergeListsGo seen acc rest by
        simp [mergeListsGo, hx]]
      rw [ih]
      congr 1
      congr 1
      simp [List.filter_cons, hx]
    · rw [show mergeListsGo seen acc (x :: rest)
          = mergeListsGo (itemKey x :: seen) (acc ++ [x]) rest by
        simp [mergeListsGo, hx]]
      rw [ih]
      have hfil : rest.filter (fun y => itemKey y ∉ itemKey x :: seen)
          = (rest.filter (fun y => itemKey y ∉ seen)).filter
              (fun y => itemKey y ≠ itemKey x) := by
        rw [List.filter_filter]
        apply List.filter_congr
        intro a _
        by_cases h1 : itemKey a = itemKey x <;> by_cases h2 : itemKey a ∈ seen <;>
          simp [h1, h2]
      rw [hfil]
      have hcons : (x :: rest).filter (fun y => itemKey y ∉ seen)
          = x :: rest.filter (fun y => itemKey y ∉ seen) := by
        simp [List.filter_cons, hx]
      rw [hcons]
      rw [show firstOccurrencesBy itemKey (x :: rest.filter (fun y => itemKey y ∉ seen))
          = x :: firstOccurrencesBy itemKey
              ((rest.filter (fun y => itemKey y ∉ seen)).filter
                (fun y => itemKey y ≠ itemKey x)) from by
        rw [firstOccurrencesBy]]
      simp

/-- C4: `_merge_lists` concatenates the two lists and keeps the first
occurrence of each deduplication key (lowercased string for string items,
Python string representation otherwise), preserving order; in particular
merging ["NDA", "nda"] with ["Confidentiality"] gives a 2-element list. -/
theorem mergeLists_dedup_first_occurrence :
    (∀ existing new : List JValue,
      mergeLists existing new = firstOccurrencesBy itemKey (existing ++ new)) ∧
    mergeLists [.jstr "NDA", .jstr "nda"] [.jstr "Confidentiality"]
      = [.jstr "NDA", .jstr "Confidentiality"] := by
  constructor
  · intro existing new
    rw [mergeLists, mergeListsGo_spec]
    simp
  · rfl

theorem lastN_length_le (n : Nat) (l : List Msg) : (lastN n l).length ≤ n := by
  simp [lastN]
  omega

theorem lastN_ne_nil_of_ne_nil (l : List Msg) (h : l ≠ []) : lastN 3 l ≠ [] := by
  have hl : 0 < l.length := List.length_pos.mpr h
  intro hcon
  have := congrArg List.length hcon
  simp [lastN] at this
  omega

theorem getLast_append_single (l : List Msg) (x : Msg) :
    (l ++ [x]).getLast? = some x := List.getLast?_concat l

/-- C7: at most the last 3 history turns are replayed, the current user
question is always the final outgoing entry, and anything before the
replayed turns is one of the synthetic prefixes. -/
theorem getResponse_replay_bound (hc : Bool) (sp ct : String) (h : List Msg)
    (msg atext : String) :
    ∃ pre : List Msg,
      (getResponse hc sp ct h msg atext).outgoing
        = pre ++ lastN 3 h ++ [⟨"user", msg⟩] ∧
      (pre = [] ∨
        pre = [⟨"user", seedUserContent ct⟩, ⟨"assistant", seedAckContent⟩] ∨
        pre = [⟨"user", contextContent (if hc then sp else ct)⟩]) ∧
      pre.length ≤ 2 ∧
      (lastN 3 h).length ≤ 3 ∧
      (getResponse hc sp ct h msg atext).outgoing.getLast? = some ⟨"user", msg⟩ := by
  by_cases hh : h = []
  · subst hh
    refine ⟨[⟨"user", seedUserContent ct⟩, ⟨"assistant", seedAckContent⟩], ?_, ?_, ?_, ?_, ?_⟩
    · simp [getResponse, buildMessages, headRole, lastN]
    · right; left; rfl
    · simp
    · simp [lastN]
    · rw [show (getResponse hc sp ct [] msg atext).outgoing
          = ([⟨"user", seedUserContent ct⟩, ⟨"assistant", seedAckContent⟩] ++ [⟨"user", msg⟩] : List Msg) by
        simp [getResponse, buildMessages, headRole, lastN]]
      exact getLast_append_single _ _
  · have hne := lastN_ne_nil_of_ne_nil h hh
    by_cases hrole : headRole (lastN 3 h) = "user"
    · refine ⟨[], ?_, Or.inl rfl, by simp, lastN_length_le 3 h, ?_⟩
      · simp [getResponse, buildMessages, hh, hne, hrole]
      · rw [show (getResponse hc sp ct h msg atext).outgoing
            = lastN 3 h ++ [⟨"user", msg⟩] by
          simp [getResponse, buildMessages, hh, hne, hrole]]
        exact getLast_append_single _ _
    · refine ⟨[⟨"user", contextContent (if hc then sp else ct)⟩], ?_, Or.inr (Or.inr rfl),
        by simp, lastN_length_le 3 h, ?_⟩
      · simp [getResponse, buildMessages, hh, hne, hrole]
      · rw [show (getResponse hc sp ct h msg atext).outgoing
            = (⟨"user", contextContent (if hc then sp else ct)⟩ :: lastN 3 h) ++ [⟨"user", msg⟩] by
          simp [getResponse, buildMessages, hh, hne, hrole]]
        exact getLast_append_single _ _

/-- C8: on the first turn for a brand-new contract id (no session, empty
history) the outgoing sequence is exactly the synthetic user seed carrying
the full source text, the synthetic assistant acknowledgment, and then the
user's real question; the seed content contains the full source text. -/
theorem getResponse_new_session_seed (sp ct msg atext : String) :
    (getResponse false sp ct [] msg atext).outgoing =
      [⟨"user", seedUserContent ct⟩, ⟨"assistant", seedAckContent⟩, ⟨"user", msg⟩] ∧
    (∃ pre post : String, seedUserContent ct = pre ++ ct ++ post) ∧
    headRole (getResponse false sp ct [] msg atext).outgoing = "user" := by
  refine ⟨?_, ⟨"Here is the contract to analyze:\n\n",
    "\n\nPlease acknowledge that you\x27ve received the contract.", rfl⟩, ?_⟩
  · simp [getResponse, buildMessages, headRole, lastN]
  · rw [show (getResponse false sp ct [] msg atext).outgoing
        = [⟨"user", seedUserContent ct⟩, ⟨"assistant", seedAckContent⟩, ⟨"user", msg⟩] by
      simp [getResponse, buildMessages, headRole, lastN]]
    rfl

theorem runTurns_eq (hc : Bool) (sp ct : String) :
    ∀ (turns : List (String × String)) (h0 : List Msg),
    runTurns hc sp ct h0 turns = h0 ++ turns.map (fun t => (⟨"assistant", t.2⟩ : Msg)) := by
  intro turns
  induction turns with
  | nil => intro h0; simp [runTurns]
  | cons t rest ih =>
    intro h0
    simp only [runTurns, List.foldl_cons] at *
    rw [show (getResponse hc sp ct h0 t.1 t.2).saved = h0 ++ [⟨"assistant", t.2⟩] from rfl]
    rw [ih]
    simp

/-- C10: a successful get_response call appends exactly one record to the
persisted history — the assistant reply — and iterating turns therefore
grows the history by one assistant-role record per turn, never storing
the caller's user message. -/
theorem getResponse_persists_single_assistant_record (hc : Bool) (sp ct : String) :
    (∀ (h : List Msg) (msg atext : String),
      (getResponse hc sp ct h msg atext).saved = h ++ [⟨"assistant", atext⟩]) ∧
    ∀ (h0 : List Msg) (turns : List (String × String)),
      runTurns hc sp ct h0 turns
          = h0 ++ turns.map (fun t => (⟨"assistant", t.2⟩ : Msg)) ∧
      (runTurns hc sp ct h0 turns).length = h0.length + turns.length ∧
      ∀ m ∈ (runTurns hc sp ct h0 turns).drop h0.length, m.role = "assistant" := by
  refine ⟨fun h msg atext => rfl, fun h0 turns => ⟨runTurns_eq hc sp ct turns h0, ?_, ?_⟩⟩
  · rw [runTurns_eq hc sp ct turns h0]
    simp
  · rw [runTurns_eq hc sp ct turns h0, List.drop_left]
    intro m hm
    simp [List.mem_map] at hm
    obtain ⟨t, w, _, ht⟩ := hm
    rw [← ht]

theorem jeq_self (c : JValue) : jeq c c = true := (jeq_iff c c).mpr rfl

theorem jeq_false_of_ne {a b : JValue} (h : a ≠ b) : jeq a b = false := by
  rw [← Bool.not_eq_true, jeq_iff]
  exact h

theorem addToGroup_fst (c : JValue) (r : RiskObj) :
    ∀ groups : List (JValue × List RiskObj),
    (addToGroup groups c r).map Prod.fst =
      if c ∈ groups.map Prod.fst then groups.map Prod.fst
      else groups.map Prod.fst ++ [c] := by
  intro groups
  induction groups with
  | nil => simp [addToGroup]
  | cons g rest ih =>
    obtain ⟨c2, rs⟩ := g
    by_cases hc : c2 = c
    · subst hc
      simp [addToGroup, jeq_self]
    · have hcs : c ≠ c2 := Ne.symm hc
      simp only [addToGroup, jeq_false_of_ne hc, Bool.false_eq_true, if_false,
        List.map_cons]
      rw [ih]
      simp only [List.mem_cons, hcs, false_or]
      by_cases hmem : c ∈ rest.map Prod.fst <;> simp [hmem]

theorem lookupGroup_addToGroup_self (c : JValue) (r : RiskObj) :
    ∀ groups : List (JValue × List RiskObj),
    lookupGroup (addToGroup groups c r) c =
      some (((lookupGroup groups c).getD []) ++ [r]) := by
  intro groups
  induction groups with
  | nil => simp [addToGroup, lookupGroup]
  | cons g rest ih =>
    obtain ⟨c2, rs⟩ := g
    by_cases hc : c2 = c
    · subst hc
      simp [addToGroup, jeq_self, lookupGroup]
    · simp [addToGroup, jeq_false_of_ne hc, lookupGroup, hc, ih]

theorem lookupGroup_addToGroup_ne (c c3 : JValue) (r : RiskObj) (hne : c3 ≠ c) :
    ∀ groups : List (JValue × List RiskObj),
    lookupGroup (addToGroup groups c r) c3 = lookupGroup groups c3 := by
  intro groups
  have hcs : c ≠ c3 := Ne.symm hne
  induction groups with
  | nil => simp [addToGroup, lookupGroup, hcs]
  | cons g rest ih =>
    obtain ⟨c2, rs⟩ := g
    by_cases hc : c2 = c
    · subst hc
      simp [addToGroup, jeq_self, lookupGroup, hcs]
    · simp [addToGroup, jeq_false_of_ne hc, lookupGroup, ih]

theorem dedupFirst_cons (x : JValue) (xs : List JValue) :
    dedupFirst (x :: xs) = x :: dedupFirst (xs.filter (fun y => y ≠ x)) := by
  rw [dedupFirst.eq_def]

theorem groupRisks_cons (groups : List (JValue × List RiskObj)) (r : RiskObj)
    (rest : List RiskObj) (c : JValue)
    (hcat : lookupField r "category" = some c) (hhash : isUnhashable c = false) :
    groupRisks groups (r :: rest) = groupRisks (addToGroup groups c r) rest := by
  simp [groupRisks, getItem, hcat, hhash, bind, Except.bind]

theorem groupRisks_cons_inv (groups : List (JValue × List RiskObj)) (r : RiskObj)
    (rest : List RiskObj) (g : List (JValue × List RiskObj))
    (hok : groupRisks groups (r :: rest) = .ok g) :
    ∃ c, lookupField r "category" = some c ∧ isUnhashable c = false ∧
      groupRisks (addToGroup groups c r) rest = .ok g := by
  cases hcat : lookupField r "category" with
  | none => simp [groupRisks, getItem, hcat, bind, Except.bind] at hok
  | some c =>
    by_cases hhash : isUnhashable c
    · simp [groupRisks, getItem, hcat, hhash, bind, Except.bind] at hok
    · refine ⟨c, rfl, by simp [hhash], ?_⟩
      rw [← groupRisks_cons groups r rest c hcat (by simp [hhash])]
      exact hok

theorem groupRisks_lookup : ∀ (rest : List RiskObj) (groups g : List (JValue × List RiskObj)),
    groupRisks groups rest = .ok g →
    ∀ c : JValue, lookupGroup g c =
      combineGroups (lookupGroup groups c) (rest.filter (fun r => catOfD r = c)) := by
  intro rest
  induction rest with
  | nil =>
    intro groups g hok c
    simp only [groupRisks] at hok
    cases hok
    cases hl : lookupGroup groups c <;> simp [combineGroups, hl, List.filter_nil]
  | cons r rest2 ih =>
    intro groups g hok c
    obtain ⟨c0, hcat, hhash, hok2⟩ := groupRisks_cons_inv _ _ _ _ hok
    have hcof : catOfD r = c0 := by simp [catOfD, hcat]
    have ihc := ih _ _ hok2 c
    by_cases hceq : c = c0
    · subst hceq
      rw [lookupGroup_addToGroup_self] at ihc
      rw [ihc, List.filter_cons]
      simp only [hcof, decide_True, if_true]
      cases hlg : lookupGroup groups c <;> simp [combineGroups]
    · rw [lookupGroup_addToGroup_ne c0 c r hceq] at ihc
      rw [ihc, List.filter_cons]
      have hfalse : (catOfD r = c) = False := by
        simp only [hcof, eq_iff_iff, iff_false]
        exact fun h => hceq h.symm
      simp [hfalse]

theorem groupRisks_fst : ∀ (rest : List RiskObj) (groups g : List (JValue × List RiskObj)),
    groupRisks groups rest = .ok g →
    g.map Prod.fst = groups.map Prod.fst ++
      dedupFirst ((rest.map catOfD).filter (fun c => c ∉ groups.map Prod.fst)) := by
  intro rest
  induction rest with
  | nil =>
    intro groups g hok
    simp only [groupRisks] at hok
    cases hok
    simp [dedupFirst]
  | cons r rest2 ih =>
    intro groups g hok
    obtain ⟨c0, hcat, hhash, hok2⟩ := groupRisks_cons_inv _ _ _ _ hok
    have hcof : catOfD r = c0 := by simp [catOfD, hcat]
    have ihg := ih _ _ hok2
    rw [addToGroup_fst] at ihg
    by_cases hmem : c0 ∈ groups.map Prod.fst
    · rw [if_pos hmem] at ihg
      rw [ihg]
      congr 2
      rw [List.map_cons, List.filter_cons, hcof]
      simp [hmem]
    · rw [if_neg hmem] at ihg
      rw [ihg, List.append_assoc]
      congr 1
      rw [List.map_cons, List.filter_cons, hcof]
      simp only [hmem, not_false_iff, decide_True, if_true]
      rw [dedupFirst_cons]
      have hfil : (rest2.map catOfD).filter
            (fun c => c ∉ groups.map Prod.fst ++ [c0])
          = ((rest2.map catOfD).filter (fun c => c ∉ groups.map Prod.fst)).filter
              (fun y => y ≠ c0) := by
        rw [List.filter_filter]
        apply List.filter_congr
        intro a _
        by_cases h1 : a = c0 <;> by_cases h2 : a ∈ groups.map Prod.fst <;>
          simp [h1, h2, List.mem_append]
      rw [hfil]
      simp

theorem countSeverity_cons (sev : String) (r : RiskObj) (rest : List RiskObj)
    (v : JValue) (hv : lookupField r "severity" = some v) :
    countSeverity sev (r :: rest) =
      (countSeverity sev rest).map (fun n => if jeq v (.jstr sev) then n + 1 else n) := by
  simp only [countSeverity, getItem, hv, bind, Except.bind]
  cases countSeverity sev rest <;> simp [Except.map]

theorem count_sum_aux : ∀ (risks : List RiskObj),
    (∀ r ∈ risks, lookupField r "severity" = some (.jstr "high") ∨
      lookupField r "severity" = some (.jstr "medium") ∨
      lookupField r "severity" = some (.jstr "low")) →
    ∃ a b c, countSeverity "high" risks = .ok a ∧
      countSeverity "medium" risks = .ok b ∧
      countSeverity "low" risks = .ok c ∧ a + b + c = risks.length := by
  intro risks
  induction risks with
  | nil => exact fun _ => ⟨0, 0, 0, rfl, rfl, rfl, rfl⟩
  | cons r rest ih =>
    intro hsev
    obtain ⟨a, b, c, ha, hb, hc, hsum⟩ := ih (fun x hx => hsev x (by simp [hx]))
    obtain hv | hv | hv := hsev r (by simp)
    · exact ⟨a + 1, b, c,
        by rw [countSeverity_cons _ _ _ _ hv, ha]; simp [jeq, Except.map],
        by rw [countSeverity_cons _ _ _ _ hv, hb]; simp [jeq, Except.map],
        by rw [countSeverity_cons _ _ _ _ hv, hc]; simp [jeq, Except.map],
        by simp only [List.length_cons]; omega⟩
    · exact ⟨a, b + 1, c,
        by rw [countSeverity_cons _ _ _ _ hv, ha]; simp [jeq, Except.map],
        by rw [countSeverity_cons _ _ _ _ hv, hb]; simp [jeq, Except.map],
        by rw [countSeverity_cons _ _ _ _ hv, hc]; simp [jeq, Except.map],
        by simp only [List.length_cons]; omega⟩
    · exact ⟨a, b, c + 1,
        by rw [countSeverity_cons _ _ _ _ hv, ha]; simp [jeq, Except.map],
        by rw [countSeverity_cons _ _ _ _ hv, hb]; simp [jeq, Except.map],
        by rw [countSeverity_cons _ _ _ _ hv, hc]; simp [jeq, Except.map],
        by simp only [List.length_cons]; omega⟩

/-- C9 counterexample: a parsed risk whose severity string is "critical"
is counted in the total but in none of the three per-severity counts, so
highPriorityCount + mediumPriorityCount + lowPriorityCount = 0 while
totalRisks = 1: the per-severity counts do not sum to the total. -/
theorem makeSummary_severity_counterexample :
    makeSummary [[("severity", JValue.jstr "critical"), ("category", JValue.jstr "ip")]]
      = .ok ⟨1, 0, 0, 0, [(JValue.jstr "ip",
          [[("severity", JValue.jstr "critical"), ("category", JValue.jstr "ip")]])]⟩ ∧
    (0 : Nat) + 0 + 0 ≠ 1 := by
  constructor
  · simp [makeSummary, countSeverity, groupRisks, getItem, lookupField, addToGroup,
      isUnhashable, jeq, bind, Except.bind]
  · omega

/-- C9 (amended): a successful summary is a deterministic function of the
parsed risks: the total equals the number of risks; the category grouping
lists the categories in first-appearance order and each bucket holds
exactly that category's risks in order; the per-severity counts count the
risks whose severity is exactly "high"/"medium"/"low", so they sum to the
total whenever every parsed risk carries one of those three severities. -/
theorem makeSummary_deterministic (risks : List RiskObj) (s : RiskSummary)
    (hok : makeSummary risks = .ok s)
    (hsev : ∀ r ∈ risks, lookupField r "severity" = some (.jstr "high") ∨
        lookupField r "severity" = some (.jstr "medium") ∨
        lookupField r "severity" = some (.jstr "low")) :
    s.totalRisks = risks.length ∧
    s.highPriorityCount + s.mediumPriorityCount + s.lowPriorityCount = s.totalRisks ∧
    s.risksByCategory.map Prod.fst = dedupFirst (risks.map catOfD) ∧
    ∀ c rs, lookupGroup s.risksByCategory c = some rs →
      rs = risks.filter (fun r => catOfD r = c) := by
  obtain ⟨a, b, c, ha, hb, hc, hsum⟩ := count_sum_aux risks hsev
  cases hg : groupRisks [] risks with
  | error e =>
    simp [makeSummary, ha, hb, hc, hg, bind, Except.bind] at hok
  | ok g =>
    have hs : RiskSummary.mk risks.length a b c g = s := by
      simp [makeSummary, ha, hb, hc, hg, bind, Except.bind] at hok
      exact hok
    subst hs
    refine ⟨rfl, hsum, ?_, ?_⟩
    · have hfst := groupRisks_fst risks [] g hg
      simpa using hfst
    · intro c2 rs hl
      have hlk := groupRisks_lookup risks [] g hg c2
      simp only [lookupGroup] at hlk
      rw [hl] at hlk
      cases hf : risks.filter (fun r => catOfD r = c2) with
      | nil =>
        rw [hf] at hlk
        simp [combineGroups] at hlk
      | cons x xs =>
        rw [hf] at hlk
        simp [combineGroups] at hlk
        exact hlk

/-- C9 witness: the amended theorem applied to two concrete well-formed
risks sharing the category "ip". -/
theorem makeSummary_deterministic_witness :
    (makeSummary [[("severity", JValue.jstr "high"), ("category", JValue.jstr "ip")],
                  [("severity", JValue.jstr "low"), ("category", JValue.jstr "ip")]]
        = .ok ⟨2, 1, 0, 1, [(JValue.jstr "ip",
            [[("severity", JValue.jstr "high"), ("category", JValue.jstr "ip")],
             [("severity", JValue.jstr "low"), ("category", JValue.jstr "ip")]])]⟩ ∧
      (∀ r ∈ [[("severity", JValue.jstr "high"), ("category", JValue.jstr "ip")],
              [("severity", JValue.jstr "low"), ("category", JValue.jstr "ip")]],
        lookupField r "severity" = some (.jstr "high") ∨
        lookupField r "severity" = some (.jstr "medium") ∨
        lookupField r "severity" = some (.jstr "low"))) ∧
    ((RiskSummary.mk 2 1 0 1 [(JValue.jstr "ip",
        [[("severity", JValue.jstr "high"), ("category", JValue.jstr "ip")],
         [("severity", JValue.jstr "low"), ("category", JValue.jstr "ip")]])]).totalRisks
        = ([[("severity", JValue.jstr "high"), ("category", JValue.jstr "ip")],
            [("severity", JValue.jstr "low"), ("category", JValue.jstr "ip")]] : List RiskObj).length ∧
      (1 : Nat) + 0 + 1 = 2 ∧
      ([(JValue.jstr "ip",
          [[("severity", JValue.jstr "high"), ("category", JValue.jstr "ip")],
           [("severity", JValue.jstr "low"), ("category", JValue.jstr "ip")]])].map Prod.fst
        = dedupFirst (([[("severity", JValue.jstr "high"), ("category", JValue.jstr "ip")],
            [("severity", JValue.jstr "low"), ("category", JValue.jstr "ip")]] : List RiskObj).map catOfD)) ∧
      ∀ c rs, lookupGroup [(JValue.jstr "ip",
          [[("severity", JValue.jstr "high"), ("category", JValue.jstr "ip")],
           [("severity", JValue.jstr "low"), ("category", JValue.jstr "ip")]])] c = some rs →
        rs = ([[("severity", JValue.jstr "high"), ("category", JValue.jstr "ip")],
               [("severity", JValue.jstr "low"), ("category", JValue.jstr "ip")]] : List RiskObj).filter
                (fun r => catOfD r = c)) := by
  have hok : makeSummary [[("severity", JValue.jstr "high"), ("category", JValue.jstr "ip")],
                  [("severity", JValue.jstr "low"), ("category", JValue.jstr "ip")]]
        = .ok ⟨2, 1, 0, 1, [(JValue.jstr "ip",
            [[("severity", JValue.jstr "high"), ("category", JValue.jstr "ip")],
             [("severity", JValue.jstr "low"), ("category", JValue.jstr "ip")]])]⟩ := by
    simp [makeSummary, countSeverity, groupRisks, getItem, lookupField, addToGroup,
      isUnhashable, jeq, bind, Except.bind]
  have hsev : ∀ r ∈ [[("severity", JValue.jstr "high"), ("category", JValue.jstr "ip")],
              [("severity", JValue.jstr "low"), ("category", JValue.jstr "ip")]],
      lookupField r "severity" = some (JValue.jstr "high") ∨
      lookupField r "severity" = some (JValue.jstr "medium") ∨
      lookupField r "severity" = some (JValue.jstr "low") := by
    intro r hr
    simp only [List.mem_cons, List.not_mem_nil, or_false] at hr
    rcases hr with rfl | rfl
    · left; rfl
    · right; right; rfl
  exact ⟨⟨hok, hsev⟩, makeSummary_deterministic _ _ hok hsev⟩

theorem consHead_ne_nil (c : Char) (xs : List (List Char)) : consHead c xs ≠ [] := by
  cases xs <;> simp [consHead]

theorem splitSentences_ne_nil : ∀ l : List Char, splitSentences l ≠ [] := by
  intro l
  induction l using splitSentences.induct with
  | case1 => simp [splitSentences]
  | case2 c => simp [splitSentences, consHead]
  | case3 c d rest hcd ih =>
    rw [splitSentences]
    rw [if_pos hcd]
    simp
  | case4 c d rest hcd ih =>
    rw [splitSentences]
    rw [if_neg hcd]
    exact consHead_ne_nil _ _

theorem joinCharSep_consHead (sep : List Char) (c : Char) (xs : List (List Char))
    (hne : xs ≠ []) : joinCharSep sep (consHead c xs) = c :: joinCharSep sep xs := by
  cases xs with
  | nil => cases hne rfl
  | cons s ss =>
    cases ss <;> simp [consHead, joinCharSep]

theorem splitSentences_join : ∀ l : List Char,
    joinCharSep ['.', ' '] (splitSentences l) = l := by
  intro l
  induction l using splitSentences.induct with
  | case1 => simp [splitSentences, joinCharSep]
  | case2 c => simp [splitSentences, consHead, joinCharSep]
  | case3 c d rest hcd ih =>
    rw [splitSentences, if_pos hcd]
    obtain ⟨rfl, rfl⟩ := hcd
    cases hsp : splitSentences rest with
    | nil => exact absurd hsp (splitSentences_ne_nil rest)
    | cons a as =>
      rw [hsp] at ih
      simp [joinCharSep, ih]
  | case4 c d rest hcd ih =>
    rw [splitSentences, if_neg hcd]
    rw [joinCharSep_consHead _ _ _ (splitSentences_ne_nil _)]
    rw [ih]

theorem String_mk_append (a b : List Char) :
    String.mk a ++ String.mk b = String.mk (a ++ b) := rfl

theorem joinSep_map_mk (sepL : List Char) :
    ∀ ls : List (List Char),
    joinSep (String.mk sepL) (ls.map String.mk) = String.mk (joinCharSep sepL ls) := by
  intro ls
  induction ls with
  | nil => rfl
  | cons x xs ih =>
    cases xs with
    | nil => rfl
    | cons y ys =>
      simp only [List.map_cons, joinSep, joinCharSep] at *
      rw [ih, String_mk_append, String_mk_append]

theorem pySplit_join (text : String) :
    joinSep ". " (pySplitDotSpace text) = text := by
  rw [pySplitDotSpace]
  rw [show (". " : String) = String.mk ['.', ' '] from rfl]
  rw [joinSep_map_mk]
  rw [splitSentences_join]

theorem pySplit_ne_nil (text : String) : pySplitDotSpace text ≠ [] := by
  rw [pySplitDotSpace]
  simp [splitSentences_ne_nil]

theorem decoratedSentences_ne_nil (text : String) : decoratedSentences text ≠ [] := by
  rw [decoratedSentences]
  simp [pySplit_ne_nil]

theorem chunkStep_flush (tok : String → Nat) (effMax : Int) (st : ChunkState) (s : String)
    (hcond : (st.curTokens : Int) + (tok s : Int) > effMax ∧ st.cur ≠ []) :
    chunkStep tok effMax st s =
      { chunks := st.chunks ++ [joinSep " " st.cur], cur := [s], curTokens := tok s } := by
  simp [chunkStep, hcond]

theorem chunkStep_keep (tok : String → Nat) (effMax : Int) (st : ChunkState) (s : String)
    (hcond : ¬((st.curTokens : Int) + (tok s : Int) > effMax ∧ st.cur ≠ [])) :
    chunkStep tok effMax st s =
      { chunks := st.chunks, cur := st.cur ++ [s], curTokens := st.curTokens + tok s } := by
  simp only [chunkStep]
  rw [if_neg hcond]

theorem chunkFold_groups (tok : String → Nat) (effMax : Int) :
    ∀ (l : List String) (st : ChunkState) (g : List (List String)),
    st.chunks = g.map (joinSep " ") →
    (∀ x ∈ g, x ≠ []) →
    ∃ g2 : List (List String),
      (l.foldl (chunkStep tok effMax) st).chunks = g2.map (joinSep " ") ∧
      (∀ x ∈ g2, x ≠ []) ∧
      g2.flatten ++ (l.foldl (chunkStep tok effMax) st).cur = g.flatten ++ st.cur ++ l := by
  intro l
  induction l with
  | nil =>
    intro st g h1 h2
    exact ⟨g, h1, h2, by simp⟩
  | cons s rest ih =>
    intro st g h1 h2
    simp only [List.foldl_cons]
    by_cases hcond : ((st.curTokens : Int) + (tok s : Int) > effMax ∧ st.cur ≠ [])
    · rw [chunkStep_flush tok effMax st s hcond]
      obtain ⟨g2, hg1, hg2, hg3⟩ := ih
        { chunks := st.chunks ++ [joinSep " " st.cur], cur := [s], curTokens := tok s }
        (g ++ [st.cur])
        (by simp [h1])
        (by
          intro x hx
          rcases List.mem_append.mp hx with hx | hx
          · exact h2 x hx
          · simp at hx
            subst hx
            exact hcond.2)
      refine ⟨g2, hg1, hg2, ?_⟩
      rw [hg3]
      simp
    · rw [chunkStep_keep tok effMax st s hcond]
      obtain ⟨g2, hg1, hg2, hg3⟩ := ih
        { chunks := st.chunks, cur := st.cur ++ [s], curTokens := st.curTokens + tok s }
        g h1 h2
      refine ⟨g2, hg1, hg2, ?_⟩
      rw [hg3]
      simp

theorem chunkText_eq_fold (tok : String → Nat) (text : String) (mt : Int) :
    chunkText tok text mt =
      (if ((decoratedSentences text).foldl (chunkStep tok (mt - 500)) ⟨[], [], 0⟩).cur ≠ [] then
        ((decoratedSentences text).foldl (chunkStep tok (mt - 500)) ⟨[], [], 0⟩).chunks
          ++ [joinSep " " ((decoratedSentences text).foldl (chunkStep tok (mt - 500)) ⟨[], [], 0⟩).cur]
      else ((decoratedSentences text).foldl (chunkStep tok (mt - 500)) ⟨[], [], 0⟩).chunks) := by
  simp only [chunkText, decoratedSentences, List.foldl_map]

theorem chunkText_groups (tok : String → Nat) (text : String) (mt : Int) :
    ∃ g : List (List String), (∀ x ∈ g, x ≠ []) ∧
      chunkText tok text mt = g.map (joinSep " ") ∧
      g.flatten = decoratedSentences text := by
  obtain ⟨g2, h1, h2, h3⟩ := chunkFold_groups tok (mt - 500) (decoratedSentences text)
    ⟨[], [], 0⟩ [] (by simp) (by simp)
  simp only [List.flatten_nil, List.nil_append] at h3
  rw [chunkText_eq_fold]
  by_cases hcur : ((decoratedSentences text).foldl (chunkStep tok (mt - 500)) ⟨[], [], 0⟩).cur = []
  · refine ⟨g2, h2, ?_, ?_⟩
    · rw [if_neg (by simp [hcur])]
      exact h1
    · rw [hcur, List.append_nil] at h3
      exact h3
  · refine ⟨g2 ++ [((decoratedSentences text).foldl (chunkStep tok (mt - 500)) ⟨[], [], 0⟩).cur],
      ?_, ?_, ?_⟩
    · intro x hx
      rcases List.mem_append.mp hx with hx | hx
      · exact h2 x hx
      · simp at hx
        subst hx
        exact hcur
    · rw [if_pos hcur]
      simp [h1]
    · rw [List.flatten_append]
      simpa using h3

theorem joinSep_append (sep : String) : ∀ a b : List String, a ≠ [] → b ≠ [] →
    joinSep sep (a ++ b) = joinSep sep a ++ sep ++ joinSep sep b := by
  intro a
  induction a with
  | nil => intro b h _; cases h rfl
  | cons x xs ih =>
    intro b _ hb
    cases xs with
    | nil =>
      cases b with
      | nil => cases hb rfl
      | cons y ys => simp [joinSep]
    | cons z zs =>
      rw [show (x :: z :: zs) ++ b = x :: ((z :: zs) ++ b) from rfl]
      rw [show (z :: zs) ++ b = z :: (zs ++ b) from rfl]
      simp only [joinSep]
      rw [show z :: (zs ++ b) = (z :: zs) ++ b from rfl]
      rw [ih b (by simp) hb]
      simp [String.append_assoc]

theorem flatten_ne_nil_of_head (y : List String) (ys : List (List String))
    (hy : y ≠ []) : (y :: ys).flatten ≠ [] := by
  simp only [List.flatten_cons]
  intro hcon
  rcases List.append_eq_nil.mp hcon with ⟨h1, _⟩
  exact hy h1

theorem joinSep_flat : ∀ g : List (List String), (∀ x ∈ g, x ≠ []) →
    joinSep " " (g.map (joinSep " ")) = joinSep " " g.flatten := by
  intro g
  induction g with
  | nil => intro _; rfl
  | cons x xs ih =>
    intro hne
    cases hxs : xs with
    | nil => simp [joinSep]
    | cons y ys =>
      subst hxs
      have hx : x ≠ [] := hne x (by simp)
      have hyj : (y :: ys).flatten ≠ [] :=
        flatten_ne_nil_of_head y ys (hne y (by simp))
      rw [List.map_cons]
      rw [show joinSep " " (joinSep " " x :: (y :: ys).map (joinSep " "))
          = joinSep " " x ++ " " ++ joinSep " " ((y :: ys).map (joinSep " ")) from by
        simp [joinSep]]
      rw [ih (fun z hz => hne z (by simp [hz]))]
      rw [show (x :: y :: ys).flatten = x ++ (y :: ys).flatten from rfl]
      rw [joinSep_append " " x (y :: ys).flatten hx hyj]

theorem getD_map_str (f : String → String) : ∀ (l : List String) (i : Nat),
    i < l.length → (l.map f).getD i "" = f (l.getD i "") := by
  intro l
  induction l with
  | nil => intro i hi; simp at hi
  | cons x xs ih =>
    intro i hi
    cases i with
    | zero => simp [List.getD]
    | succ j =>
      simp only [List.map_cons, List.getD_cons_succ]
      exact ih j (by simpa using hi)

/-- C2: the chunks partition the decorated sentence list (no sentence is
dropped, duplicated, or split across chunks); each decorated sentence is
the corresponding `split(". ")` sentence verbatim, possibly with its
delimiter period reattached; joining the chunks with single spaces equals
joining the decorated sentences with single spaces; and the sentences
joined with ". " reconstruct the original text exactly. -/
theorem chunkText_reconstruction (tok : String → Nat) (text : String) (mt : Int) :
    ∃ g : List (List String),
      (∀ x ∈ g, x ≠ []) ∧
      chunkText tok text mt = g.map (joinSep " ") ∧
      g.flatten = decoratedSentences text ∧
      joinSep " " (chunkText tok text mt) = joinSep " " (decoratedSentences text) ∧
      (decoratedSentences text).length = (pySplitDotSpace text).length ∧
      (∀ i, i < (pySplitDotSpace text).length →
        (decoratedSentences text).getD i "" = (pySplitDotSpace text).getD i "" ∨
        (decoratedSentences text).getD i ""
          = (pySplitDotSpace text).getD i "" ++ ".") ∧
      joinSep ". " (pySplitDotSpace text) = text := by
  obtain ⟨g, h1, h2, h3⟩ := chunkText_groups tok text mt
  refine ⟨g, h1, h2, h3, ?_, ?_, ?_, pySplit_join text⟩
  · rw [h2, joinSep_flat g h1, h3]
  · simp [decoratedSentences]
  · intro i hi
    rw [show decoratedSentences text
        = (pySplitDotSpace text).map (decorate ((pySplitDotSpace text).getLastD "")) from rfl]
    rw [getD_map_str _ _ i hi]
    by_cases hlast : (pySplitDotSpace text).getD i "" ≠ (pySplitDotSpace text).getLastD ""
    · right
      simp only [decorate]
      rw [if_pos hlast]
    · left
      simp only [decorate]
      rw [if_neg hlast]

/-- C6 counterexample: chunking the empty string yields one chunk holding
the empty string (Python `"".split(". ")` is `[""]`), not an empty
sequence. -/
theorem chunkText_empty_input_counterexample :
    chunkText (fun _ => 0) "" 4000 = [""] ∧ chunkText (fun _ => 0) "" 4000 ≠ [] := by
  constructor
  · rfl
  · rw [show chunkText (fun _ => 0) "" 4000 = [""] from rfl]
    simp

/-- C6 (amended): the chunker is a deterministic pure function whose output
is never empty for any input; on the empty string it returns the
one-element sequence [""]. -/
theorem chunkText_never_empty :
    (∀ (tok : String → Nat) (text : String) (mt : Int), chunkText tok text mt ≠ []) ∧
    (∀ (tok : String → Nat) (mt : Int), chunkText tok "" mt = [""]) := by
  constructor
  · intro tok text mt hcon
    obtain ⟨g, h1, h2, h3⟩ := chunkText_groups tok text mt
    rw [hcon] at h2
    have hg : g = [] := by
      cases g with
      | nil => rfl
      | cons a as => simp at h2
    subst hg
    simp only [List.flatten_nil] at h3
    exact decoratedSentences_ne_nil text h3.symm
  · intro tok mt
    rw [chunkText_eq_fold]
    rw [show decoratedSentences "" = [""] from rfl]
    simp [chunkStep, joinSep]

theorem tok_joinSep_le (tok : String → Nat)
    (hsub : ∀ a b : String, (tok (a ++ " " ++ b) : Int) ≤ (tok a : Int) + (tok b : Int)) :
    ∀ l : List String, l ≠ [] →
    (tok (joinSep " " l) : Int) ≤ ((l.map tok).sum : Int) := by
  intro l
  induction l with
  | nil => intro h; cases h rfl
  | cons x xs ih =>
    intro _
    cases hxs : xs with
    | nil => simp [joinSep]
    | cons y ys =>
      subst hxs
      rw [show joinSep " " (x :: y :: ys) = x ++ " " ++ joinSep " " (y :: ys) from by
        simp [joinSep]]
      have h1 := hsub x (joinSep " " (y :: ys))
      have h2 := ih (by simp)
      have hsum : (((x :: y :: ys).map tok).sum : Int)
          = (tok x : Int) + (((y :: ys).map tok).sum : Int) := by
        push_cast [List.map_cons, List.sum_cons]
        ring
      omega

theorem chunkFold_bounded (tok : String → Nat) (effMax : Int)
    (hsub : ∀ a b : String, (tok (a ++ " " ++ b) : Int) ≤ (tok a : Int) + (tok b : Int)) :
    ∀ (l : List String) (st : ChunkState),
    (∀ s ∈ l, (tok s : Int) ≤ effMax) →
    (∀ ch ∈ st.chunks, (tok ch : Int) ≤ effMax) →
    ((st.cur.map tok).sum : Int) ≤ effMax →
    st.curTokens = (st.cur.map tok).sum →
    (∀ ch ∈ (l.foldl (chunkStep tok effMax) st).chunks, (tok ch : Int) ≤ effMax) ∧
    (((l.foldl (chunkStep tok effMax) st).cur.map tok).sum : Int) ≤ effMax ∧
    (l.foldl (chunkStep tok effMax) st).curTokens
      = ((l.foldl (chunkStep tok effMax) st).cur.map tok).sum := by
  intro l
  induction l with
  | nil =>
    intro st _ h1 h2 h3
    exact ⟨h1, h2, h3⟩
  | cons s rest ih =>
    intro st hl h1 h2 h3
    simp only [List.foldl_cons]
    have hs : (tok s : Int) ≤ effMax := hl s (by simp)
    by_cases hcond : ((st.curTokens : Int) + (tok s : Int) > effMax ∧ st.cur ≠ [])
    · rw [chunkStep_flush tok effMax st s hcond]
      refine ih _ (fun z hz => hl z (by simp [hz])) ?_ ?_ ?_
      · intro ch hch
        rcases List.mem_append.mp hch with hch | hch
        · exact h1 ch hch
        · simp at hch
          subst hch
          calc (tok (joinSep " " st.cur) : Int)
              ≤ ((st.cur.map tok).sum : Int) := tok_joinSep_le tok hsub st.cur hcond.2
            _ ≤ effMax := h2
      · simpa using hs
      · simp
    · rw [chunkStep_keep tok effMax st s hcond]
      refine ih _ (fun z hz => hl z (by simp [hz])) h1 ?_ ?_
      · by_cases hc : st.cur = []
        · simpa [hc] using hs
        · have hle : (st.curTokens : Int) + (tok s : Int) ≤ effMax := by
            by_contra hgt
            push_neg at hgt
            exact hcond ⟨hgt, hc⟩
          rw [h3] at hle
          have hsum2 : ((st.cur ++ [s]).map tok).sum = (st.cur.map tok).sum + tok s := by
            simp
          show (((st.cur ++ [s]).map tok).sum : Int) ≤ effMax
          rw [hsum2]
          omega
      · simp [h3]

/-- C5: when the (abstract) token counter is subadditive across the single
spaces that join sentences and every decorated sentence fits within the
effective budget `maxTokens - 500`, every chunk the chunker emits fits
within that effective budget. -/
theorem chunkText_token_bound (tok : String → Nat) (text : String) (mt : Int)
    (hsub : ∀ a b : String, (tok (a ++ " " ++ b) : Int) ≤ (tok a : Int) + (tok b : Int))
    (hsent : ∀ s ∈ decoratedSentences text, (tok s : Int) ≤ mt - 500) :
    ∀ ch ∈ chunkText tok text mt, (tok ch : Int) ≤ mt - 500 := by
  obtain ⟨hchunks, hcur, _⟩ := chunkFold_bounded tok (mt - 500) hsub
    (decoratedSentences text) ⟨[], [], 0⟩ hsent (by simp)
    (by
      have hD := decoratedSentences_ne_nil text
      obtain ⟨s, hs⟩ := List.exists_mem_of_ne_nil _ hD
      have h1 := hsent s hs
      have h2 : (0 : Int) ≤ (tok s : Int) := Int.ofNat_nonneg _
      show ((([] : List String).map tok).sum : Int) ≤ mt - 500
      simp
      omega)
    rfl
  intro ch hch
  rw [chunkText_eq_fold] at hch
  by_cases hc : ((decoratedSentences text).foldl (chunkStep tok (mt - 500)) ⟨[], [], 0⟩).cur = []
  · rw [if_neg (by simp [hc])] at hch
    exact hchunks ch hch
  · rw [if_pos hc] at hch
    rcases List.mem_append.mp hch with hch | hch
    · exact hchunks ch hch
    · simp at hch
      subst hch
      calc (tok (joinSep " "
            ((decoratedSentences text).foldl (chunkStep tok (mt - 500)) ⟨[], [], 0⟩).cur) : Int)
          ≤ _ := tok_joinSep_le tok hsub _ hc
        _ ≤ mt - 500 := hcur

/-- C5 witness: the bound theorem applied to the constant-1 token counter
on a concrete two-sentence text with the default budget 4000. -/
theorem chunkText_token_bound_witness :
    ((∀ a b : String, (((fun _ => 1 : String → Nat) (a ++ " " ++ b) : Nat) : Int)
        ≤ (((fun _ => 1 : String → Nat) a : Nat) : Int)
          + (((fun _ => 1 : String → Nat) b : Nat) : Int)) ∧
      (∀ s ∈ decoratedSentences "Hello. World",
        (((fun _ => 1 : String → Nat) s : Nat) : Int) ≤ (4000 : Int) - 500)) ∧
    ∀ ch ∈ chunkText (fun _ => 1) "Hello. World" 4000,
      (((fun _ => 1 : String → Nat) ch : Nat) : Int) ≤ (4000 : Int) - 500 := by
  have hsub : ∀ a b : String, (((fun _ => 1 : String → Nat) (a ++ " " ++ b) : Nat) : Int)
      ≤ (((fun _ => 1 : String → Nat) a : Nat) : Int)
        + (((fun _ => 1 : String → Nat) b : Nat) : Int) := by
    intro a b
    norm_num
  have hsent : ∀ s ∈ decoratedSentences "Hello. World",
      (((fun _ => 1 : String → Nat) s : Nat) : Int) ≤ (4000 : Int) - 500 := by
    intro s _
    norm_num
  exact ⟨⟨hsub, hsent⟩,
    chunkText_token_bound (fun _ => 1) "Hello. World" 4000 hsub hsent⟩
